import Mathlib

/-!
Verification development for the Maxwell leap-frog solver of
`src/ex_4/ex04_Safin.ipynb`.

The notebook stores a vector field as a numpy array of shape
`(3, N0, N1, N2)` of floats; we embed it as a function
`Fin 3 → Fin N0 → Fin N1 → Fin N2 → ℚ` (exact arithmetic, the update
formulas use only field operations).  The notebook's neighbour accesses
`A[c, i, (j-1), k]` rely on numpy's negative-index convention: for
`j ∈ range(N1)` the index `j-1` is `-1` only when `j = 0`, and numpy maps
`-1` to `N1-1`, i.e. the access is the periodic predecessor.  `prev`
embeds exactly that wrap.
-/

namespace Maxwell

abbrev Field (N0 N1 N2 : ℕ) : Type := Fin 3 → Fin N0 → Fin N1 → Fin N2 → ℚ

/-- Periodic predecessor on a lattice axis: the numpy access at `i - 1`
for a loop index `i ∈ range(n)` (index `-1` wraps to `n-1`). -/
def prev {n : ℕ} (i : Fin n) : Fin n :=
  ⟨(i.1 + (n - 1)) % n, Nat.mod_lt _ i.pos⟩

/-- `update_E_vec` from the notebook: for each lattice point the three
components of the new electric field, `delta_n = dt / h` elementwise. -/
def update_E_vec {N0 N1 N2 : ℕ} (dt : ℚ) (h : Fin 3 → ℚ)
    (E_vec B_vec : Field N0 N1 N2) : Field N0 N1 N2 :=
  let delta_n : Fin 3 → ℚ := fun d => dt / h d
  fun c i j k =>
    if c = 0 then
      E_vec 0 i j k + (delta_n 1 * (B_vec 2 i j k - B_vec 2 i (prev j) k)
        - delta_n 2 * (B_vec 1 i j k - B_vec 1 i j (prev k)))
    else if c = 1 then
      E_vec 1 i j k + (delta_n 2 * (B_vec 0 i j k - B_vec 0 i j (prev k))
        - delta_n 0 * (B_vec 2 i j k - B_vec 2 (prev i) j k))
    else
      E_vec 2 i j k + (delta_n 0 * (B_vec 1 i j k - B_vec 1 (prev i) j k)
        - delta_n 1 * (B_vec 0 i j k - B_vec 0 i (prev j) k))

/-- `update_B_vec` from the notebook. -/
def update_B_vec {N0 N1 N2 : ℕ} (dt : ℚ) (h : Fin 3 → ℚ)
    (E_vec B_vec : Field N0 N1 N2) : Field N0 N1 N2 :=
  let delta_n : Fin 3 → ℚ := fun d => dt / h d
  fun c i j k =>
    if c = 0 then
      B_vec 0 i j k - (delta_n 1 * (E_vec 2 i j k - E_vec 2 i (prev j) k)
        - delta_n 2 * (E_vec 1 i j k - E_vec 1 i j (prev k)))
    else if c = 1 then
      B_vec 1 i j k - (delta_n 2 * (E_vec 0 i j k - E_vec 0 i j (prev k))
        - delta_n 0 * (E_vec 2 i j k - E_vec 2 (prev i) j k))
    else
      B_vec 2 i j k - (delta_n 0 * (E_vec 1 i j k - E_vec 1 (prev i) j k)
        - delta_n 1 * (E_vec 0 i j k - E_vec 0 i (prev j) k))

/-- The notebook's time-iteration loop:
`for k in range(N_timesteps): E_vec = update_E_vec(dt,h,N,E_vec,B_vec);
B_vec = update_B_vec(dt,h,N,E_vec,B_vec)` — the B update reads the
just-rebound `E_vec`. -/
def run {N0 N1 N2 : ℕ} (dt : ℚ) (h : Fin 3 → ℚ)
    (E0 B0 : Field N0 N1 N2) (M : ℕ) : Field N0 N1 N2 × Field N0 N1 N2 :=
  (List.range M).foldl
    (fun EB _ =>
      let E_vec := update_E_vec dt h EB.1 EB.2
      let B_vec := update_B_vec dt h E_vec EB.2
      (E_vec, B_vec))
    (E0, B0)

/-- Reduce an integer index to a lattice coordinate with true
mathematical modulo. -/
def wrap (n : ℕ) [NeZero n] (i : ℤ) : Fin n :=
  ⟨(i % (n : ℤ)).toNat, by
    have hn : 0 < n := Nat.pos_of_ne_zero (NeZero.ne n)
    have h1 : 0 ≤ i % (n : ℤ) := Int.emod_nonneg i (by exact_mod_cast hn.ne')
    have h2 : i % (n : ℤ) < (n : ℤ) := Int.emod_lt_of_pos i (by exact_mod_cast hn)
    omega⟩

/-- Modelled from the spec: the Field Grid accessor `get` of spec
section 4.1 is absent from `src` (the notebook indexes numpy arrays
directly inside the update loops); per the spec, the integer indices
`i, j, k` are reduced modulo `N[d]` with true mathematical modulo before
lookup. -/
def Grid.get {N0 N1 N2 : ℕ} [NeZero N0] [NeZero N1] [NeZero N2]
    (F : Field N0 N1 N2) (c : Fin 3) (i j k : ℤ) : ℚ :=
  F c (wrap N0 i) (wrap N1 j) (wrap N2 k)

/-- The all-zero field. -/
def zeroField (N0 N1 N2 : ℕ) : Field N0 N1 N2 := fun _ _ _ _ => 0

/-- Pointwise scaling of a field by a constant. -/
def smulField {N0 N1 N2 : ℕ} (a : ℚ) (F : Field N0 N1 N2) : Field N0 N1 N2 :=
  fun c i j k => a * F c i j k

/-- State of the imperative update pass: the two (read-only) input arrays
and the freshly allocated output array the loop writes into. -/
structure MState (N0 N1 N2 : ℕ) where
  Earr : Field N0 N1 N2
  Barr : Field N0 N1 N2
  out : Field N0 N1 N2

/-- One inner-loop body execution at lattice cell `p`: it reads only the
two input arrays of the state and overwrites only cell `p` (all three
components) of the output array, exactly as the notebook's loop body does
with `E_vec_new[0..2, i, j, k] = ...`. -/
def writeBody {N0 N1 N2 : ℕ}
    (v : Field N0 N1 N2 → Field N0 N1 N2 → Field N0 N1 N2)
    (σ : MState N0 N1 N2) (p : Fin N0 × Fin N1 × Fin N2) : MState N0 N1 N2 :=
  { σ with out := fun c i j k =>
      if i = p.1 ∧ j = p.2.1 ∧ k = p.2.2 then v σ.Earr σ.Barr c i j k
      else σ.out c i j k }

/-- The traversal order of the triple `for i / for j / for k` loop nest. -/
def cellList (N0 N1 N2 : ℕ) : List (Fin N0 × Fin N1 × Fin N2) :=
  (List.finRange N0).flatMap fun i =>
    (List.finRange N1).flatMap fun j =>
      (List.finRange N2).map fun k => (i, j, k)

/-- The notebook's `update_E_vec` as an imperative pass: allocate a
zero-initialized output array (`np.zeros(np.shape(E_vec))`), then loop over
all lattice cells writing the new values; the state carries the two input
arrays through the loop. -/
def update_E_vec_imp {N0 N1 N2 : ℕ} (dt : ℚ) (h : Fin 3 → ℚ)
    (E B : Field N0 N1 N2) : MState N0 N1 N2 :=
  (cellList N0 N1 N2).foldl (writeBody (update_E_vec dt h))
    ⟨E, B, zeroField N0 N1 N2⟩

/-- The notebook's `update_B_vec` as an imperative pass. -/
def update_B_vec_imp {N0 N1 N2 : ℕ} (dt : ℚ) (h : Fin 3 → ℚ)
    (E B : Field N0 N1 N2) : MState N0 N1 N2 :=
  (cellList N0 N1 N2).foldl (writeBody (update_B_vec dt h))
    ⟨E, B, zeroField N0 N1 N2⟩

/-- A concrete electric field on a 2x1x1 lattice: identically zero. -/
def Ec : Field 2 1 1 := fun _ _ _ _ => 0

/-- A concrete magnetic field on a 2x1x1 lattice with nonzero discrete
curl: `Bz = [1, 0]` along the first axis, other components zero. -/
def Bc : Field 2 1 1 := fun c i _ _ => if c = 2 ∧ i = 0 then 1 else 0

/-- Concrete unit grid spacings. -/
def hc : Fin 3 → ℚ := fun _ => 1

theorem fin3_eq_two (c : Fin 3) (hc0 : ¬c = 0) (hc1 : ¬c = 1) : c = 2 := by
  rcases c with ⟨cv, hlt⟩
  rcases cv with _ | _ | _ | cv
  · exact absurd rfl hc0
  · exact absurd rfl hc1
  · rfl
  · omega

theorem wrap_sub_one (n : ℕ) [NeZero n] (j : ℤ) :
    wrap n (j - 1) = prev (wrap n j) := by
  have hn : 0 < n := Nat.pos_of_ne_zero (NeZero.ne n)
  have hm : (0 : ℤ) < (n : ℤ) := by exact_mod_cast hn
  apply Fin.ext
  show ((j - 1) % (n : ℤ)).toNat = ((j % (n : ℤ)).toNat + (n - 1)) % n
  have hr0 : 0 ≤ j % (n : ℤ) := Int.emod_nonneg j (by omega)
  have hr1 : j % (n : ℤ) < (n : ℤ) := Int.emod_lt_of_pos j hm
  have hmod : (j - 1) % (n : ℤ) = (j % (n : ℤ) - 1) % (n : ℤ) := by
    conv_lhs => rw [← Int.emod_add_ediv j (n : ℤ)]
    rw [show j % (n : ℤ) + (n : ℤ) * (j / (n : ℤ)) - 1
          = (j % (n : ℤ) - 1) + (n : ℤ) * (j / (n : ℤ)) from by ring,
      Int.add_mul_emod_self_left]
  rcases eq_or_lt_of_le hr0 with h0 | hpos
  · have hneg : (j - 1) % (n : ℤ) = (n : ℤ) - 1 := by
      rw [hmod, ← h0]
      have h2 : ((n : ℤ) - 1) % (n : ℤ) = (n : ℤ) - 1 :=
        Int.emod_eq_of_lt (by omega) (by omega)
      calc (0 - 1 : ℤ) % (n : ℤ) = (0 - 1 + (n : ℤ) * 1) % (n : ℤ) :=
            (Int.add_mul_emod_self_left _ _ _).symm
        _ = ((n : ℤ) - 1) % (n : ℤ) := by ring_nf
        _ = (n : ℤ) - 1 := h2
    rw [hneg, ← h0]
    have : ((0 : ℤ)).toNat = 0 := rfl
    rw [this, Nat.zero_add, Nat.mod_eq_of_lt (by omega)]
    omega
  · have hsub : (j - 1) % (n : ℤ) = j % (n : ℤ) - 1 := by
      rw [hmod]
      exact Int.emod_eq_of_lt (by omega) (by omega)
    have ht1 : 1 ≤ (j % (n : ℤ)).toNat := by omega
    have ht2 : (j % (n : ℤ)).toNat < n := by omega
    have hsplit : (j % (n : ℤ)).toNat + (n - 1) = n + ((j % (n : ℤ)).toNat - 1) := by
      omega
    rw [hsub, hsplit, Nat.add_mod_left, Nat.mod_eq_of_lt (by omega)]
    omega

theorem wrap_emod (n : ℕ) [NeZero n] (i : ℤ) : wrap n (i % (n : ℤ)) = wrap n i := by
  apply Fin.ext
  show ((i % (n : ℤ)) % (n : ℤ)).toNat = (i % (n : ℤ)).toNat
  rw [Int.emod_emod_of_dvd _ dvd_rfl]

theorem wrap_neg_one (n : ℕ) [NeZero n] : wrap n (-1) = wrap n ((n : ℤ) - 1) := by
  have hn : 0 < n := Nat.pos_of_ne_zero (NeZero.ne n)
  have hm : (0 : ℤ) < (n : ℤ) := by exact_mod_cast hn
  apply Fin.ext
  show ((-1 : ℤ) % (n : ℤ)).toNat = (((n : ℤ) - 1) % (n : ℤ)).toNat
  have h2 : ((n : ℤ) - 1) % (n : ℤ) = (n : ℤ) - 1 :=
    Int.emod_eq_of_lt (by omega) (by omega)
  have h1 : (-1 : ℤ) % (n : ℤ) = (n : ℤ) - 1 := by
    calc (-1 : ℤ) % (n : ℤ) = (-1 + (n : ℤ) * 1) % (n : ℤ) :=
          (Int.add_mul_emod_self_left _ _ _).symm
      _ = ((n : ℤ) - 1) % (n : ℤ) := by ring_nf
      _ = (n : ℤ) - 1 := h2
  rw [h1, h2]

theorem update_E_vec_apply_zero {N0 N1 N2 : ℕ} (dt : ℚ) (h : Fin 3 → ℚ)
    (E B : Field N0 N1 N2) (i : Fin N0) (j : Fin N1) (k : Fin N2) :
    update_E_vec dt h E B 0 i j k =
      E 0 i j k + (dt / h 1 * (B 2 i j k - B 2 i (prev j) k)
        - dt / h 2 * (B 1 i j k - B 1 i j (prev k))) := rfl

theorem update_E_vec_apply_one {N0 N1 N2 : ℕ} (dt : ℚ) (h : Fin 3 → ℚ)
    (E B : Field N0 N1 N2) (i : Fin N0) (j : Fin N1) (k : Fin N2) :
    update_E_vec dt h E B 1 i j k =
      E 1 i j k + (dt / h 2 * (B 0 i j k - B 0 i j (prev k))
        - dt / h 0 * (B 2 i j k - B 2 (prev i) j k)) := rfl

theorem update_E_vec_apply_two {N0 N1 N2 : ℕ} (dt : ℚ) (h : Fin 3 → ℚ)
    (E B : Field N0 N1 N2) (i : Fin N0) (j : Fin N1) (k : Fin N2) :
    update_E_vec dt h E B 2 i j k =
      E 2 i j k + (dt / h 0 * (B 1 i j k - B 1 (prev i) j k)
        - dt / h 1 * (B 0 i j k - B 0 i (prev j) k)) := rfl

theorem update_B_vec_apply_zero {N0 N1 N2 : ℕ} (dt : ℚ) (h : Fin 3 → ℚ)
    (E B : Field N0 N1 N2) (i : Fin N0) (j : Fin N1) (k : Fin N2) :
    update_B_vec dt h E B 0 i j k =
      B 0 i j k - (dt / h 1 * (E 2 i j k - E 2 i (prev j) k)
        - dt / h 2 * (E 1 i j k - E 1 i j (prev k))) := rfl

theorem update_B_vec_apply_one {N0 N1 N2 : ℕ} (dt : ℚ) (h : Fin 3 → ℚ)
    (E B : Field N0 N1 N2) (i : Fin N0) (j : Fin N1) (k : Fin N2) :
    update_B_vec dt h E B 1 i j k =
      B 1 i j k - (dt / h 2 * (E 0 i j k - E 0 i j (prev k))
        - dt / h 0 * (E 2 i j k - E 2 (prev i) j k)) := rfl

theorem update_B_vec_apply_two {N0 N1 N2 : ℕ} (dt : ℚ) (h : Fin 3 → ℚ)
    (E B : Field N0 N1 N2) (i : Fin N0) (j : Fin N1) (k : Fin N2) :
    update_B_vec dt h E B 2 i j k =
      B 2 i j k - (dt / h 0 * (E 1 i j k - E 1 (prev i) j k)
        - dt / h 1 * (E 0 i j k - E 0 i (prev j) k)) := rfl

theorem get_update_E_zero {N0 N1 N2 : ℕ} (dt : ℚ) (h : Fin 3 → ℚ)
    (E B : Field (N0 + 1) (N1 + 1) (N2 + 1)) (i j k : ℤ) :
    Grid.get (update_E_vec dt h E B) 0 i j k =
      Grid.get E 0 i j k
        + dt / h 1 * (Grid.get B 2 i j k - Grid.get B 2 i (j - 1) k)
        - dt / h 2 * (Grid.get B 1 i j k - Grid.get B 1 i j (k - 1)) := by
  simp only [Grid.get, wrap_sub_one, update_E_vec_apply_zero]
  ring

theorem get_update_E_one {N0 N1 N2 : ℕ} (dt : ℚ) (h : Fin 3 → ℚ)
    (E B : Field (N0 + 1) (N1 + 1) (N2 + 1)) (i j k : ℤ) :
    Grid.get (update_E_vec dt h E B) 1 i j k =
      Grid.get E 1 i j k
        + dt / h 2 * (Grid.get B 0 i j k - Grid.get B 0 i j (k - 1))
        - dt / h 0 * (Grid.get B 2 i j k - Grid.get B 2 (i - 1) j k) := by
  simp only [Grid.get, wrap_sub_one, update_E_vec_apply_one]
  ring

theorem get_update_E_two {N0 N1 N2 : ℕ} (dt : ℚ) (h : Fin 3 → ℚ)
    (E B : Field (N0 + 1) (N1 + 1) (N2 + 1)) (i j k : ℤ) :
    Grid.get (update_E_vec dt h E B) 2 i j k =
      Grid.get E 2 i j k
        + dt / h 0 * (Grid.get B 1 i j k - Grid.get B 1 (i - 1) j k)
        - dt / h 1 * (Grid.get B 0 i j k - Grid.get B 0 i (j - 1) k) := by
  simp only [Grid.get, wrap_sub_one, update_E_vec_apply_two]
  ring

theorem get_update_B_zero {N0 N1 N2 : ℕ} (dt : ℚ) (h : Fin 3 → ℚ)
    (E B : Field (N0 + 1) (N1 + 1) (N2 + 1)) (i j k : ℤ) :
    Grid.get (update_B_vec dt h E B) 0 i j k =
      Grid.get B 0 i j k
        - dt / h 1 * (Grid.get E 2 i j k - Grid.get E 2 i (j - 1) k)
        + dt / h 2 * (Grid.get E 1 i j k - Grid.get E 1 i j (k - 1)) := by
  simp only [Grid.get, wrap_sub_one, update_B_vec_apply_zero]
  ring

theorem get_update_B_one {N0 N1 N2 : ℕ} (dt : ℚ) (h : Fin 3 → ℚ)
    (E B : Field (N0 + 1) (N1 + 1) (N2 + 1)) (i j k : ℤ) :
    Grid.get (update_B_vec dt h E B) 1 i j k =
      Grid.get B 1 i j k
        - dt / h 2 * (Grid.get E 0 i j k - Grid.get E 0 i j (k - 1))
        + dt / h 0 * (Grid.get E 2 i j k - Grid.get E 2 (i - 1) j k) := by
  simp only [Grid.get, wrap_sub_one, update_B_vec_apply_one]
  ring

theorem get_update_B_two {N0 N1 N2 : ℕ} (dt : ℚ) (h : Fin 3 → ℚ)
    (E B : Field (N0 + 1) (N1 + 1) (N2 + 1)) (i j k : ℤ) :
    Grid.get (update_B_vec dt h E B) 2 i j k =
      Grid.get B 2 i j k
        - dt / h 0 * (Grid.get E 1 i j k - Grid.get E 1 (i - 1) j k)
        + dt / h 1 * (Grid.get E 0 i j k - Grid.get E 0 i (j - 1) k) := by
  simp only [Grid.get, wrap_sub_one, update_B_vec_apply_two]
  ring

/-- C1: for every `dt`, grid spacings `h`, positive shape, fields `E, B` of
shape `(3, N0, N1, N2)`, and every lattice point `(i, j, k)` (any integers,
with periodic neighbour access), the E-update satisfies, with
`delta[d] = dt / h[d]`, the backward-difference discrete-curl formulas
`E'[x] = E[x] + delta[1]*(B[z] diff in j) - delta[2]*(B[y] diff in k)` and
its cyclic y- and z-component analogues. -/
theorem update_E_vec_correct {N0 N1 N2 : ℕ} (dt : ℚ) (h : Fin 3 → ℚ)
    (E B : Field (N0 + 1) (N1 + 1) (N2 + 1)) (i j k : ℤ) :
    Grid.get (update_E_vec dt h E B) 0 i j k =
      Grid.get E 0 i j k
        + dt / h 1 * (Grid.get B 2 i j k - Grid.get B 2 i (j - 1) k)
        - dt / h 2 * (Grid.get B 1 i j k - Grid.get B 1 i j (k - 1)) ∧
    Grid.get (update_E_vec dt h E B) 1 i j k =
      Grid.get E 1 i j k
        + dt / h 2 * (Grid.get B 0 i j k - Grid.get B 0 i j (k - 1))
        - dt / h 0 * (Grid.get B 2 i j k - Grid.get B 2 (i - 1) j k) ∧
    Grid.get (update_E_vec dt h E B) 2 i j k =
      Grid.get E 2 i j k
        + dt / h 0 * (Grid.get B 1 i j k - Grid.get B 1 (i - 1) j k)
        - dt / h 1 * (Grid.get B 0 i j k - Grid.get B 0 i (j - 1) k) :=
  ⟨get_update_E_zero dt h E B i j k, get_update_E_one dt h E B i j k,
    get_update_E_two dt h E B i j k⟩

/-- C2: for every `dt`, grid spacings `h`, positive shape, fields `E, B` of
shape `(3, N0, N1, N2)`, and every lattice point `(i, j, k)` (any integers,
with periodic neighbour access), the B-update satisfies, with
`delta[d] = dt / h[d]`, the formulas
`B'[x] = B[x] - delta[1]*(E[z] diff in j) + delta[2]*(E[y] diff in k)` and
its cyclic y- and z-component analogues (discrete `-curl(E)`). -/
theorem update_B_vec_correct {N0 N1 N2 : ℕ} (dt : ℚ) (h : Fin 3 → ℚ)
    (E B : Field (N0 + 1) (N1 + 1) (N2 + 1)) (i j k : ℤ) :
    Grid.get (update_B_vec dt h E B) 0 i j k =
      Grid.get B 0 i j k
        - dt / h 1 * (Grid.get E 2 i j k - Grid.get E 2 i (j - 1) k)
        + dt / h 2 * (Grid.get E 1 i j k - Grid.get E 1 i j (k - 1)) ∧
    Grid.get (update_B_vec dt h E B) 1 i j k =
      Grid.get B 1 i j k
        - dt / h 2 * (Grid.get E 0 i j k - Grid.get E 0 i j (k - 1))
        + dt / h 0 * (Grid.get E 2 i j k - Grid.get E 2 (i - 1) j k) ∧
    Grid.get (update_B_vec dt h E B) 2 i j k =
      Grid.get B 2 i j k
        - dt / h 0 * (Grid.get E 1 i j k - Grid.get E 1 (i - 1) j k)
        + dt / h 1 * (Grid.get E 0 i j k - Grid.get E 0 i (j - 1) k) :=
  ⟨get_update_B_zero dt h E B i j k, get_update_B_one dt h E B i j k,
    get_update_B_two dt h E B i j k⟩

theorem update_E_vec_zero {N0 N1 N2 : ℕ} (dt : ℚ) (h : Fin 3 → ℚ) :
    update_E_vec dt h (zeroField N0 N1 N2) (zeroField N0 N1 N2)
      = zeroField N0 N1 N2 := by
  funext c i j k
  simp only [update_E_vec, zeroField]
  split_ifs <;> ring

theorem update_B_vec_zero {N0 N1 N2 : ℕ} (dt : ℚ) (h : Fin 3 → ℚ) :
    update_B_vec dt h (zeroField N0 N1 N2) (zeroField N0 N1 N2)
      = zeroField N0 N1 N2 := by
  funext c i j k
  simp only [update_B_vec, zeroField]
  split_ifs <;> ring

theorem foldl_writeBody_inputs {N0 N1 N2 : ℕ}
    (v : Field N0 N1 N2 → Field N0 N1 N2 → Field N0 N1 N2)
    (l : List (Fin N0 × Fin N1 × Fin N2)) (σ : MState N0 N1 N2) :
    (l.foldl (writeBody v) σ).Earr = σ.Earr ∧
    (l.foldl (writeBody v) σ).Barr = σ.Barr := by
  induction l generalizing σ with
  | nil => exact ⟨rfl, rfl⟩
  | cons p t ih =>
    have h1 := ih (writeBody v σ p)
    simpa [writeBody] using h1

theorem foldl_writeBody_out {N0 N1 N2 : ℕ}
    (v : Field N0 N1 N2 → Field N0 N1 N2 → Field N0 N1 N2)
    (l : List (Fin N0 × Fin N1 × Fin N2)) (σ : MState N0 N1 N2)
    (c : Fin 3) (i : Fin N0) (j : Fin N1) (k : Fin N2) :
    (l.foldl (writeBody v) σ).out c i j k =
      if (i, j, k) ∈ l then v σ.Earr σ.Barr c i j k else σ.out c i j k := by
  induction l generalizing σ with
  | nil => simp
  | cons p t ih =>
    rw [List.foldl_cons, ih]
    by_cases hmem : ((i, j, k) : Fin N0 × Fin N1 × Fin N2) ∈ t
    · simp [writeBody, hmem, List.mem_cons]
    · by_cases hp : i = p.1 ∧ j = p.2.1 ∧ k = p.2.2
      · have heq : ((i, j, k) : Fin N0 × Fin N1 × Fin N2) = p := by
          obtain ⟨h1, h2, h3⟩ := hp
          exact Prod.ext h1 (Prod.ext h2 h3)
        simp [writeBody, hmem, hp, List.mem_cons, heq]
      · have hne : ¬((i, j, k) : Fin N0 × Fin N1 × Fin N2) = p := by
          rintro rfl
          exact hp ⟨rfl, rfl, rfl⟩
        simp [writeBody, hmem, hp, List.mem_cons, hne]

theorem mem_cellList {N0 N1 N2 : ℕ} (p : Fin N0 × Fin N1 × Fin N2) :
    p ∈ cellList N0 N1 N2 := by
  rcases p with ⟨i, j, k⟩
  simp [cellList, List.mem_flatMap, List.mem_map, List.mem_finRange]

/-- C3: the time-stepper performs exactly `M` iterations: after zero steps
it returns the initial pair unchanged, and each iteration first computes
`E' = update_E_vec(dt, h, E, B)` and then `B' = update_B_vec(dt, h, E', B)`
using the E just produced in the same iteration, returning the final pair. -/
theorem run_characterization {N0 N1 N2 : ℕ} (dt : ℚ) (h : Fin 3 → ℚ)
    (E0 B0 : Field N0 N1 N2) :
    run dt h E0 B0 0 = (E0, B0) ∧
    ∀ M : ℕ, run dt h E0 B0 (M + 1) =
      (update_E_vec dt h (run dt h E0 B0 M).1 (run dt h E0 B0 M).2,
       update_B_vec dt h
         (update_E_vec dt h (run dt h E0 B0 M).1 (run dt h E0 B0 M).2)
         (run dt h E0 B0 M).2) := by
  refine ⟨rfl, fun M => ?_⟩
  simp only [run, List.range_succ, List.foldl_append, List.foldl_cons,
    List.foldl_nil]

/-- C4: field-grid access accepts any integer indices and reduces each
modulo `N[d]` (true mathematical modulo) before lookup; in particular,
for every axis, access at index `-1` returns the same value as access at
index `N[d] - 1`. -/
theorem get_periodic_wrap {N0 N1 N2 : ℕ} (F : Field (N0 + 1) (N1 + 1) (N2 + 1))
    (c : Fin 3) (i j k : ℤ) :
    Grid.get F c i j k =
      Grid.get F c (i % ((N0 + 1 : ℕ) : ℤ)) (j % ((N1 + 1 : ℕ) : ℤ))
        (k % ((N2 + 1 : ℕ) : ℤ)) ∧
    Grid.get F c (-1) j k = Grid.get F c (((N0 + 1 : ℕ) : ℤ) - 1) j k ∧
    Grid.get F c i (-1) k = Grid.get F c i (((N1 + 1 : ℕ) : ℤ) - 1) k ∧
    Grid.get F c i j (-1) = Grid.get F c i j (((N2 + 1 : ℕ) : ℤ) - 1) := by
  refine ⟨?_, ?_, ?_, ?_⟩ <;> simp only [Grid.get, wrap_emod, wrap_neg_one]

/-- C5 counterexample: with `dt = -1 ≤ 0` (an invalid parameter per the
claim) `update_E_vec` is not rejected: it returns a fully computed output
field, with values that differ from the input electric field — no
ShapeMismatch/InvalidParameter failure exists anywhere in the code. -/
theorem no_validation_cex :
    (-1 : ℚ) ≤ 0 ∧
    update_E_vec (-1) hc Ec Bc 1 0 0 0 = 1 ∧
    update_E_vec (-1) hc Ec Bc 1 1 0 0 = -1 ∧
    Ec 1 0 0 0 = 0 ∧ Ec 1 1 0 0 = 0 := by
  refine ⟨by norm_num, ?_⟩
  norm_num [update_E_vec, Ec, Bc, hc, prev, Fin.ext_iff]

/-- C5 amended: the updates perform no input validation at all: even for
`dt ≤ 0` (and for any `h`), `update_E_vec` completes the whole grid
traversal and returns the fully computed update, satisfying the usual
pointwise formula; no eager rejection or distinguishable failure value is
ever produced. -/
theorem update_E_vec_no_rejection {N0 N1 N2 : ℕ} (dt : ℚ) (hdt : dt ≤ 0)
    (h : Fin 3 → ℚ) (E B : Field (N0 + 1) (N1 + 1) (N2 + 1)) (i j k : ℤ) :
    Grid.get (update_E_vec dt h E B) 0 i j k =
      Grid.get E 0 i j k
        + dt / h 1 * (Grid.get B 2 i j k - Grid.get B 2 i (j - 1) k)
        - dt / h 2 * (Grid.get B 1 i j k - Grid.get B 1 i j (k - 1)) :=
  get_update_E_zero dt h E B i j k

theorem update_E_vec_no_rejection_witness :
    Grid.get (update_E_vec (-1) hc Ec Bc) 0 0 0 0 =
      Grid.get Ec 0 0 0 0
        + (-1) / hc 1 * (Grid.get Bc 2 0 0 0 - Grid.get Bc 2 0 (0 - 1) 0)
        - (-1) / hc 2 * (Grid.get Bc 1 0 0 0 - Grid.get Bc 1 0 0 (0 - 1)) :=
  update_E_vec_no_rejection (-1) (by norm_num) hc Ec Bc 0 0 0

/-- C6: for fixed `dt, h` the two updates are linear in the `(E, B)`
inputs: scaling both input fields by a constant `a` scales the increment
(output minus the unmodified input field component) by `a` at every
lattice point; consequently one full step (E-update then B-update, as the
time loop performs it) maps the all-zero fields to the all-zero fields. -/
theorem update_linear_and_zero_fixed {N0 N1 N2 : ℕ} (dt : ℚ) (h : Fin 3 → ℚ) :
    (∀ (a : ℚ) (E B : Field N0 N1 N2) (c : Fin 3) (i : Fin N0) (j : Fin N1)
      (k : Fin N2),
      update_E_vec dt h (smulField a E) (smulField a B) c i j k
          - smulField a E c i j k
        = a * (update_E_vec dt h E B c i j k - E c i j k)) ∧
    (∀ (a : ℚ) (E B : Field N0 N1 N2) (c : Fin 3) (i : Fin N0) (j : Fin N1)
      (k : Fin N2),
      update_B_vec dt h (smulField a E) (smulField a B) c i j k
          - smulField a B c i j k
        = a * (update_B_vec dt h E B c i j k - B c i j k)) ∧
    run dt h (zeroField N0 N1 N2) (zeroField N0 N1 N2) 1
      = (zeroField N0 N1 N2, zeroField N0 N1 N2) := by
  refine ⟨fun a E B c i j k => ?_, fun a E B c i j k => ?_, ?_⟩
  · simp only [update_E_vec, smulField]
    split_ifs with hc0 hc1
    · subst hc0; ring
    · subst hc1; ring
    · have h2 := fin3_eq_two c hc0 hc1
      subst h2; ring
  · simp only [update_B_vec, smulField]
    split_ifs with hc0 hc1
    · subst hc0; ring
    · subst hc1; ring
    · have h2 := fin3_eq_two c hc0 hc1
      subst h2; ring
  · simp only [run, List.range_succ, List.range_zero, List.nil_append,
      List.foldl_cons, List.foldl_nil]
    rw [update_E_vec_zero, update_B_vec_zero]

/-- C7: the step ordering is not commutative: on a concrete input with
nonzero discrete curl (`Bz = [1, 0]` on a 2x1x1 lattice, `E = 0`,
`dt = h = 1`), performing the B-update before the E-update in a single
step produces a different `(E, B)` pair than the specified
E-update-then-B-update order. -/
theorem order_sensitivity :
    (update_E_vec 1 hc Ec Bc,
      update_B_vec 1 hc (update_E_vec 1 hc Ec Bc) Bc) ≠
    (update_E_vec 1 hc Ec (update_B_vec 1 hc Ec Bc),
      update_B_vec 1 hc Ec Bc) := by
  intro hcontra
  have h2 := congrArg (fun p : Field 2 1 1 × Field 2 1 1 => p.2 2 0 0 0) hcontra
  simp only at h2
  have h3 : update_B_vec 1 hc (update_E_vec 1 hc Ec Bc) Bc 2 0 0 0 = 3 ∧
      update_B_vec 1 hc Ec Bc 2 0 0 0 = 1 := by
    norm_num [update_B_vec, update_E_vec, Ec, Bc, hc, prev, Fin.ext_iff]
  rw [h3.1, h3.2] at h2
  norm_num at h2

/-- C8: both updates are pure with respect to their field arguments: run
as an imperative pass over an explicit state, each one writes only into
the freshly (zero-)allocated output array of the same shape, the final
output equals the pure per-point update, and both input arrays are left
unchanged by the call. -/
theorem update_imp_pure {N0 N1 N2 : ℕ} (dt : ℚ) (h : Fin 3 → ℚ)
    (E B : Field N0 N1 N2) :
    ((update_E_vec_imp dt h E B).Earr = E ∧
     (update_E_vec_imp dt h E B).Barr = B ∧
     (update_E_vec_imp dt h E B).out = update_E_vec dt h E B) ∧
    ((update_B_vec_imp dt h E B).Earr = E ∧
     (update_B_vec_imp dt h E B).Barr = B ∧
     (update_B_vec_imp dt h E B).out = update_B_vec dt h E B) := by
  refine ⟨⟨?_, ?_, ?_⟩, ⟨?_, ?_, ?_⟩⟩
  · exact (foldl_writeBody_inputs _ _ _).1
  · exact (foldl_writeBody_inputs _ _ _).2
  · funext c i j k
    show ((cellList N0 N1 N2).foldl (writeBody (update_E_vec dt h))
        ⟨E, B, zeroField N0 N1 N2⟩).out c i j k = update_E_vec dt h E B c i j k
    rw [foldl_writeBody_out, if_pos (mem_cellList _)]
  · exact (foldl_writeBody_inputs _ _ _).1
  · exact (foldl_writeBody_inputs _ _ _).2
  · funext c i j k
    show ((cellList N0 N1 N2).foldl (writeBody (update_B_vec dt h))
        ⟨E, B, zeroField N0 N1 N2⟩).out c i j k = update_B_vec dt h E B c i j k
    rw [foldl_writeBody_out, if_pos (mem_cellList _)]

/-- C10: the two updates apply the identical backward-difference
discrete-curl operator with opposite signs: at every lattice point,
`update_B_vec dt h E B = B - (update_E_vec dt h Z E - Z)` where `Z` is the
all-zero field, i.e. the B-update decrement is term for term the E-update
increment evaluated with the roles `E := 0`, `B := E`. -/
theorem update_B_vec_eq_neg_curl {N0 N1 N2 : ℕ} (dt : ℚ) (h : Fin 3 → ℚ)
    (E B : Field N0 N1 N2) (c : Fin 3) (i : Fin N0) (j : Fin N1) (k : Fin N2) :
    update_B_vec dt h E B c i j k =
      B c i j k - (update_E_vec dt h (zeroField N0 N1 N2) E c i j k
        - zeroField N0 N1 N2 c i j k) := by
  simp only [update_E_vec, update_B_vec, zeroField]
  split_ifs with hc0 hc1
  · subst hc0; ring
  · subst hc1; ring
  · have h2 := fin3_eq_two c hc0 hc1
    subst h2; ring

end Maxwell
